import Mathlib

/-!
Verification of the leanSpec fork-choice store, attestation-weighing engine
and API boundary layer.

The data model follows the repository's containers: digests are opaque
identifiers (modelled as naturals), checkpoints are (slot, root) pairs,
block headers carry slot / parent_root / proposer_index / state_root, and
the fork-choice store aggregates the block map, state map, checkpoint
fields, the attestation-data cache and the latest-known-aggregated-payloads
vote table.  Python dicts become association lists (insertion-ordered,
first-match lookup, unique keys when built by the operations here).
-/

namespace LeanSpecFC

/-- Opaque 32-byte content digest; the engine only compares digests for
equality and uses them as map keys, so a natural number models one. -/
abbrev Digest := Nat

/-- A (slot, block-digest) pair marking a vote or finality target. -/
structure Checkpoint where
  slot : Nat
  root : Digest
  deriving DecidableEq, Repr

/-- Block header data: slot, parent digest, proposer and state digest. -/
structure BlockHeader where
  slot : Nat
  parent_root : Digest
  proposer_index : Nat
  state_root : Digest
  deriving DecidableEq, Repr

/-- Chain state associated with a block; the engine only ever reads the
validator-set size, so only the validator list is kept (entries opaque). -/
structure ChainState where
  validators : List Nat
  deriving DecidableEq, Repr

/-- Attestation content: slot plus head / target / source checkpoints. -/
structure AttestationData where
  slot : Nat
  head : Checkpoint
  target : Checkpoint
  source : Checkpoint
  deriving DecidableEq, Repr

/-- First-match lookup in an association list keyed by digests,
the shallow embedding of Python dict indexing / `.get`. -/
def alookup {α : Type} : List (Nat × α) → Nat → Option α
  | [], _ => none
  | (k, v) :: rest, d => if k = d then some v else alookup rest d

/-- A vote-table key: (validator index, attestation payload digest). -/
abbrev VoteKey := Nat × Nat

/-- The fork-choice store aggregate, mirroring the `Store` container:
block map, state map, head digest, the three checkpoint/safe-target
fields, the attestation-data cache and the vote table
(`latest_known_aggregated_payloads`, mapping a vote key to its list of
opaque aggregated-signature evidence records). -/
structure Store where
  blocks : List (Digest × BlockHeader)
  states : List (Digest × ChainState)
  head : Digest
  latest_justified : Checkpoint
  latest_finalized : Checkpoint
  safe_target : Digest
  attestation_data_by_root : List (Digest × AttestationData)
  latest_known_aggregated_payloads : List (VoteKey × List Nat)
  deriving Repr

/-- Modelled from the spec: the ancestor walk of `compute_block_weights`
(the `Store` method itself is not part of the inspected sources, only its
tests).  Starting from the attested head digest, while the current block's
slot is strictly above the finalized slot the digest is credited and the
walk moves to the parent.  A digest missing from the block map is
`UnknownAncestor`: the whole vote is dropped (`none`), never fatal.  The
fuel argument is the defensive visited-bound against corrupted parent
links; exhausting it also drops the vote. -/
def walkChain (blocks : List (Digest × BlockHeader)) (finalizedSlot : Nat) :
    Nat → Digest → Option (List Digest)
  | 0, _ => none
  | fuel + 1, current =>
    match alookup blocks current with
    | none => none
    | some b =>
      if finalizedSlot < b.slot then
        match walkChain blocks finalizedSlot fuel b.parent_root with
        | none => none
        | some rest => some (current :: rest)
      else
        some []

/-- Insert-or-increment on the weight accumulator: the first entry for the
digest gains 1, a missing digest is appended with weight 1. -/
def bump (w : List (Digest × Nat)) (d : Digest) : List (Digest × Nat) :=
  match w with
  | [] => [(d, 1)]
  | (k, v) :: rest => if k = d then (k, v + 1) :: rest else (k, v) :: bump rest d

/-- Credit one unit of weight to every digest in the list, in order. -/
def applyCredits (w : List (Digest × Nat)) (cs : List Digest) : List (Digest × Nat) :=
  cs.foldl bump w

/-- Modelled from the spec: processing of a single vote-table key inside
`compute_block_weights`.  The payload digest is resolved against the
attestation-data cache; an absent entry means the vote is skipped (no
error).  A resolved vote walks the parent chain from its attested head and
credits each visited digest. -/
def processVote (attByRoot : List (Digest × AttestationData))
    (blocks : List (Digest × BlockHeader)) (finalizedSlot : Nat)
    (w : List (Digest × Nat)) (vote : VoteKey) : List (Digest × Nat) :=
  match alookup attByRoot vote.2 with
  | none => w
  | some att =>
    match walkChain blocks finalizedSlot (blocks.length + 1) att.head.root with
    | none => w
    | some cs => applyCredits w cs

/-- Modelled from the spec: `Store.compute_block_weights` (absent from the
inspected sources; reconstructed from spec §4.4 and its tests).  Starting
from an empty accumulator, every key of the vote table contributes the
ancestor walk from its attested head; digests never walked are absent from
the result, not present with weight 0. -/
def compute_block_weights (store : Store) : List (Digest × Nat) :=
  (store.latest_known_aggregated_payloads.map Prod.fst).foldl
    (processVote store.attestation_data_by_root store.blocks
      store.latest_finalized.slot) []

/-- Weight reported for a digest: its accumulator entry, defaulting to 0. -/
def weightOf (w : List (Digest × Nat)) (d : Digest) : Nat :=
  (alookup w d).getD 0

/-- The key set of an association list. -/
def keys {α : Type} (m : List (Nat × α)) : List Nat :=
  m.map Prod.fst

theorem applyCredits_nil (w : List (Digest × Nat)) : applyCredits w [] = w := rfl

theorem applyCredits_cons (w : List (Digest × Nat)) (c : Digest) (cs : List Digest) :
    applyCredits w (c :: cs) = applyCredits (bump w c) cs := rfl

theorem weightOf_nil (d : Digest) : weightOf [] d = 0 := rfl

theorem weightOf_cons (k : Digest) (v : Nat) (w : List (Digest × Nat)) (d : Digest) :
    weightOf ((k, v) :: w) d = if k = d then v else weightOf w d := by
  simp only [weightOf, alookup]
  by_cases h : k = d <;> simp [h]

theorem weightOf_bump (w : List (Digest × Nat)) (c d : Digest) :
    weightOf (bump w c) d = weightOf w d + if c = d then 1 else 0 := by
  induction w with
  | nil =>
    by_cases h : c = d <;> simp [bump, weightOf_cons, weightOf_nil, h]
  | cons kv rest ih =>
    obtain ⟨k, v⟩ := kv
    by_cases hk : k = c
    · subst hk
      by_cases h : k = d <;> simp [bump, weightOf_cons, h]
    · by_cases h : k = d
      · have hc : ¬ c = d := fun e => hk (h.trans e.symm)
        have hdc : ¬ d = c := fun e => hc e.symm
        simp [bump, hk, weightOf_cons, h, hc, hdc]
      · simp [bump, hk, weightOf_cons, h, ih]

theorem weightOf_applyCredits (cs : List Digest) :
    ∀ (w : List (Digest × Nat)) (d : Digest),
      weightOf (applyCredits w cs) d = weightOf w d + cs.count d := by
  induction cs with
  | nil => intro w d; simp [applyCredits_nil]
  | cons c rest ih =>
    intro w d
    rw [applyCredits_cons, ih (bump w c) d, weightOf_bump]
    simp only [List.count_cons, beq_iff_eq]
    by_cases h : c = d
    · subst h
      simp
      omega
    · have hd : ¬ d = c := fun e => h e.symm
      simp [h, hd]

theorem mem_keys_bump (w : List (Digest × Nat)) (c d : Digest) :
    d ∈ keys (bump w c) ↔ d ∈ keys w ∨ d = c := by
  induction w with
  | nil => simp [bump, keys]
  | cons kv rest ih =>
    obtain ⟨k, v⟩ := kv
    simp only [bump]
    by_cases hk : k = c
    · rw [if_pos hk]
      subst hk
      simp only [keys, List.map_cons, List.mem_cons]
      tauto
    · rw [if_neg hk]
      simp only [keys, List.map_cons, List.mem_cons]
      constructor
      · intro h
        rcases h with h | h
        · exact Or.inl (Or.inl h)
        · rcases ih.mp (by simpa [keys] using h) with h1 | h1
          · exact Or.inl (Or.inr (by simpa [keys] using h1))
          · exact Or.inr h1
      · intro h
        rcases h with (h | h) | h
        · exact Or.inl h
        · exact Or.inr (by simpa [keys] using ih.mpr (Or.inl (by simpa [keys] using h)))
        · exact Or.inr (by simpa [keys] using ih.mpr (Or.inr h))

theorem mem_keys_applyCredits (cs : List Digest) :
    ∀ (w : List (Digest × Nat)) (d : Digest),
      d ∈ keys (applyCredits w cs) → d ∈ keys w ∨ d ∈ cs := by
  induction cs with
  | nil =>
    intro w d h
    rw [applyCredits_nil] at h
    exact Or.inl h
  | cons c rest ih =>
    intro w d h
    rw [applyCredits_cons] at h
    rcases ih (bump w c) d h with h1 | h1
    · rcases (mem_keys_bump w c d).mp h1 with h2 | h2
      · exact Or.inl h2
      · exact Or.inr (by simp [h2])
    · exact Or.inr (by simp [h1])

theorem bump_not_mem (w : List (Digest × Nat)) (c : Digest) (h : c ∉ keys w) :
    bump w c = w ++ [(c, 1)] := by
  induction w with
  | nil => simp [bump]
  | cons kv rest ih =>
    obtain ⟨k, v⟩ := kv
    have hk : ¬ k = c := by
      intro e
      exact h (by simp [keys, e])
    simp only [bump, if_neg hk, List.cons_append, List.cons.injEq, true_and]
    exact ih (fun hc => h (by simp [keys] at hc ⊢; exact Or.inr hc))

theorem applyCredits_fresh (cs : List Digest) :
    ∀ (w : List (Digest × Nat)), cs.Nodup → (∀ c ∈ cs, c ∉ keys w) →
      applyCredits w cs = w ++ cs.map (fun c => (c, 1)) := by
  induction cs with
  | nil => intro w _ _; simp [applyCredits_nil]
  | cons c rest ih =>
    intro w hnd hfresh
    rw [applyCredits_cons, bump_not_mem w c (hfresh c (by simp))]
    rw [ih (w ++ [(c, 1)]) (List.Nodup.of_cons hnd) ?_]
    · simp
    · intro e he
      have h1 : e ∉ keys w := hfresh e (by simp [he])
      have h2 : ¬ e = c := by
        intro hec
        subst hec
        exact (List.nodup_cons.mp hnd).1 he
      simp [keys] at h1 ⊢
      exact ⟨h1, h2⟩

theorem walkChain_sound (blocks : List (Digest × BlockHeader)) (fs : Nat) :
    ∀ (fuel : Nat) (cur : Digest) (cs : List Digest),
      walkChain blocks fs fuel cur = some cs →
      ∀ c ∈ cs, ∃ b, alookup blocks c = some b ∧ fs < b.slot := by
  intro fuel
  induction fuel with
  | zero =>
    intro cur cs h
    simp [walkChain] at h
  | succ fuel ih =>
    intro cur cs h c hc
    simp only [walkChain] at h
    split at h
    · exact absurd h (by simp)
    · rename_i b halook
      split at h
      · rename_i hslot
        split at h
        · exact absurd h (by simp)
        · rename_i rest hrec
          simp only [Option.some.injEq] at h
          subst h
          rcases List.mem_cons.mp hc with rfl | hc2
          · exact ⟨b, halook, hslot⟩
          · exact ih b.parent_root rest hrec c hc2
      · simp only [Option.some.injEq] at h
        subst h
        simp at hc

/-- The shape of a linear parent chain inside the block map: every listed
digest resolves to a block strictly above the finalized slot whose parent
is the next listed digest (or the tail once the list ends), and the tail
resolves to a block at or below the finalized slot. -/
def chainFrom (blocks : List (Digest × BlockHeader)) (fs : Nat) :
    List Digest → Digest → Prop
  | [], tail => ∃ b, alookup blocks tail = some b ∧ b.slot ≤ fs
  | c :: rest, tail => ∃ b, alookup blocks c = some b ∧ fs < b.slot ∧
      b.parent_root = rest.headD tail ∧ chainFrom blocks fs rest tail

theorem chainFrom_tail (blocks : List (Digest × BlockHeader)) (fs : Nat) :
    ∀ (cs : List Digest) (tail : Digest), chainFrom blocks fs cs tail →
      ∃ b, alookup blocks tail = some b ∧ b.slot ≤ fs := by
  intro cs
  induction cs with
  | nil => intro tail h; exact h
  | cons c rest ih =>
    intro tail h
    obtain ⟨b, _, _, _, hrest⟩ := h
    exact ih tail hrest

theorem chainFrom_mem (blocks : List (Digest × BlockHeader)) (fs : Nat) :
    ∀ (cs : List Digest) (tail : Digest), chainFrom blocks fs cs tail →
      ∀ c ∈ cs, ∃ b, alookup blocks c = some b ∧ fs < b.slot := by
  intro cs
  induction cs with
  | nil => intro tail _ c hc; simp at hc
  | cons c0 rest ih =>
    intro tail h c hc
    obtain ⟨b, hb, hs, _, hrest⟩ := h
    rcases List.mem_cons.mp hc with rfl | hc2
    · exact ⟨b, hb, hs⟩
    · exact ih tail hrest c hc2

theorem walkChain_of_chainFrom (blocks : List (Digest × BlockHeader)) (fs : Nat) :
    ∀ (cs : List Digest) (tail : Digest), chainFrom blocks fs cs tail →
      ∀ fuel, cs.length < fuel →
        walkChain blocks fs fuel (cs.headD tail) = some cs := by
  intro cs
  induction cs with
  | nil =>
    intro tail h fuel hf
    obtain ⟨b, hb, hslot⟩ := h
    match fuel, hf with
    | fuel + 1, _ =>
      simp [walkChain, hb, Nat.not_lt.mpr hslot]
  | cons c rest ih =>
    intro tail h fuel hf
    obtain ⟨b, hb, hslot, hparent, hrest⟩ := h
    match fuel, hf with
    | fuel + 1, hf =>
      have hlt : rest.length < fuel := by
        simpa using Nat.lt_of_succ_lt_succ hf
      have hw := ih tail hrest fuel hlt
      simp only [List.headD]
      simp only [walkChain, hb, if_pos hslot, hparent]
      rw [hw]

theorem alookup_map_one_not_mem (cs : List Digest) (d : Digest) :
    d ∉ cs → alookup (cs.map (fun c => (c, 1))) d = none := by
  induction cs with
  | nil => intro _; rfl
  | cons c rest ih =>
    intro h
    simp only [List.map_cons, alookup]
    rw [if_neg (fun e => h (by simp [e]))]
    exact ih (fun hm => h (List.mem_cons_of_mem _ hm))

/-- The total weight a single vote-table key contributes to a digest: the
number of times the digest occurs on the credited ancestor walk, 0 for an
unresolvable vote or a dropped walk. -/
def voteContribution (attByRoot : List (Digest × AttestationData))
    (blocks : List (Digest × BlockHeader)) (finalizedSlot : Nat)
    (vote : VoteKey) (d : Digest) : Nat :=
  match alookup attByRoot vote.2 with
  | none => 0
  | some att =>
    match walkChain blocks finalizedSlot (blocks.length + 1) att.head.root with
    | none => 0
    | some cs => cs.count d

theorem weightOf_processVote (attByRoot : List (Digest × AttestationData))
    (blocks : List (Digest × BlockHeader)) (fs : Nat)
    (w : List (Digest × Nat)) (vk : VoteKey) (d : Digest) :
    weightOf (processVote attByRoot blocks fs w vk) d =
      weightOf w d + voteContribution attByRoot blocks fs vk d := by
  cases ha : alookup attByRoot vk.2 with
  | none => simp [processVote, voteContribution, ha]
  | some att =>
    cases hw : walkChain blocks fs (blocks.length + 1) att.head.root with
    | none => simp [processVote, voteContribution, ha, hw]
    | some cs =>
      simp only [processVote, voteContribution, ha, hw]
      exact weightOf_applyCredits cs w d

theorem mem_keys_processVote (attByRoot : List (Digest × AttestationData))
    (blocks : List (Digest × BlockHeader)) (fs : Nat)
    (w : List (Digest × Nat)) (vk : VoteKey) (d : Digest)
    (h : d ∈ keys (processVote attByRoot blocks fs w vk)) :
    d ∈ keys w ∨ ∃ b, alookup blocks d = some b ∧ fs < b.slot := by
  cases ha : alookup attByRoot vk.2 with
  | none =>
    simp only [processVote, ha] at h
    exact Or.inl h
  | some att =>
    cases hw : walkChain blocks fs (blocks.length + 1) att.head.root with
    | none =>
      simp only [processVote, ha, hw] at h
      exact Or.inl h
    | some cs =>
      simp only [processVote, ha, hw] at h
      rcases mem_keys_applyCredits cs w d h with h1 | h1
      · exact Or.inl h1
      · exact Or.inr (walkChain_sound blocks fs (blocks.length + 1) att.head.root cs hw d h1)

theorem mem_keys_foldVotes (attByRoot : List (Digest × AttestationData))
    (blocks : List (Digest × BlockHeader)) (fs : Nat) :
    ∀ (votes : List VoteKey) (w : List (Digest × Nat)) (d : Digest),
      d ∈ keys (votes.foldl (processVote attByRoot blocks fs) w) →
      d ∈ keys w ∨ ∃ b, alookup blocks d = some b ∧ fs < b.slot := by
  intro votes
  induction votes with
  | nil => intro w d h; exact Or.inl h
  | cons vk rest ih =>
    intro w d h
    rw [List.foldl_cons] at h
    rcases ih (processVote attByRoot blocks fs w vk) d h with h1 | h1
    · exact mem_keys_processVote attByRoot blocks fs w vk d h1
    · exact Or.inr h1

theorem weightOf_foldVotes (attByRoot : List (Digest × AttestationData))
    (blocks : List (Digest × BlockHeader)) (fs : Nat) :
    ∀ (votes : List VoteKey) (w : List (Digest × Nat)) (d : Digest),
      weightOf (votes.foldl (processVote attByRoot blocks fs) w) d =
        weightOf w d +
          (votes.map (fun vk => voteContribution attByRoot blocks fs vk d)).sum := by
  intro votes
  induction votes with
  | nil => intro w d; simp
  | cons vk rest ih =>
    intro w d
    rw [List.foldl_cons, List.map_cons, List.sum_cons,
      ih (processVote attByRoot blocks fs w vk) d, weightOf_processVote]
    omega

theorem processVote_unresolvable (attByRoot : List (Digest × AttestationData))
    (blocks : List (Digest × BlockHeader)) (fs : Nat)
    (w : List (Digest × Nat)) (vk : VoteKey)
    (ha : alookup attByRoot vk.2 = none) :
    processVote attByRoot blocks fs w vk = w := by
  simp [processVote, ha]

/-- Genesis block header: slot 0, sentinel parent digest. -/
def genesisHeader : BlockHeader := ⟨0, 0, 0, 500⟩

/-- Slot-1 block on top of genesis. -/
def block1Header : BlockHeader := ⟨1, 100, 0, 510⟩

/-- Slot-2 block on top of the slot-1 block. -/
def block2Header : BlockHeader := ⟨2, 101, 1, 520⟩

/-- Genesis chain state with three registered validators, as in the test
fixtures where the snapshot reports a validator count of 3. -/
def genesisState : ChainState := ⟨[0, 1, 2]⟩

/-- Digest of the genesis block in the concrete scenarios. -/
def genesisRoot : Digest := 100

/-- Digest of the slot-1 block in the concrete scenarios. -/
def block1Root : Digest := 101

/-- Digest of the slot-2 block in the concrete scenarios. -/
def block2Root : Digest := 102

/-- Genesis-only store: a single block/state pair, empty attestation cache
and empty vote table (test_genesis_only_store_returns_empty_weights). -/
def genesisStore : Store :=
  { blocks := [(100, genesisHeader)]
    states := [(100, genesisState)]
    head := 100
    latest_justified := ⟨0, 100⟩
    latest_finalized := ⟨0, 100⟩
    safe_target := 100
    attestation_data_by_root := []
    latest_known_aggregated_payloads := [] }

/-- Scenario B: blocks at slots 1 and 2 above a finalized genesis at
slot 0, one voter whose attested head is the slot-2 block
(test_linear_chain_weight_accumulates_upward). -/
def scenarioB : Store :=
  { blocks := [(100, genesisHeader), (101, block1Header), (102, block2Header)]
    states := [(100, genesisState), (101, genesisState), (102, genesisState)]
    head := 102
    latest_justified := ⟨0, 100⟩
    latest_finalized := ⟨0, 100⟩
    safe_target := 100
    attestation_data_by_root := [(77, ⟨2, ⟨2, 102⟩, ⟨2, 102⟩, ⟨0, 100⟩⟩)]
    latest_known_aggregated_payloads := [((0, 77), [0])] }

/-- Scenario C: one block at slot 1 above a finalized genesis, two distinct
validators voting for it (test_multiple_attestations_accumulate). -/
def scenarioC : Store :=
  { blocks := [(100, genesisHeader), (101, block1Header)]
    states := [(100, genesisState), (101, genesisState)]
    head := 101
    latest_justified := ⟨0, 100⟩
    latest_finalized := ⟨0, 100⟩
    safe_target := 100
    attestation_data_by_root := [(77, ⟨1, ⟨1, 101⟩, ⟨1, 101⟩, ⟨0, 100⟩⟩)]
    latest_known_aggregated_payloads := [((0, 77), [0]), ((1, 77), [0])] }

/-- Scenario D: scenario B with an extra vote-table entry whose payload
digest (99) has no attestation-cache entry. -/
def scenarioD : Store :=
  { scenarioB with
      latest_known_aggregated_payloads :=
        ((5, 99), [0]) :: scenarioB.latest_known_aggregated_payloads }

/-- C1: a single vote for the tip of a linear chain credits the attested
head and every parent-chain ancestor strictly above the finalized slot
with exactly weight 1, and the block at the finalized boundary gets no
entry at all.  The chain is the list of digests above the boundary
(head first), `tail` the first digest at or below the boundary. -/
theorem single_vote_linear_chain (store : Store) (v pd : Nat) (ev : List Nat)
    (cs : List Digest) (tail : Digest) (att : AttestationData)
    (hv : store.latest_known_aggregated_payloads = [((v, pd), ev)])
    (ha : alookup store.attestation_data_by_root pd = some att)
    (hh : att.head.root = cs.headD tail)
    (hc : chainFrom store.blocks store.latest_finalized.slot cs tail)
    (hlen : cs.length < store.blocks.length + 1)
    (hnd : cs.Nodup) :
    compute_block_weights store = cs.map (fun c => (c, 1)) ∧
      alookup (compute_block_weights store) tail = none := by
  have hwalk := walkChain_of_chainFrom store.blocks store.latest_finalized.slot cs tail hc
    (store.blocks.length + 1) hlen
  have hmain : compute_block_weights store = cs.map (fun c => (c, 1)) := by
    simp only [compute_block_weights, hv, List.map_cons, List.map_nil, List.foldl_cons,
      List.foldl_nil]
    simp only [processVote, ha, hh, hwalk]
    rw [applyCredits_fresh cs [] hnd (by intro c _; simp [keys])]
    simp
  refine ⟨hmain, ?_⟩
  rw [hmain]
  have hnotmem : tail ∉ cs := by
    intro hmem
    obtain ⟨b1, hb1, hs1⟩ :=
      chainFrom_mem store.blocks store.latest_finalized.slot cs tail hc tail hmem
    obtain ⟨b2, hb2, hs2⟩ := chainFrom_tail store.blocks store.latest_finalized.slot cs tail hc
    rw [hb1] at hb2
    cases hb2
    omega
  exact alookup_map_one_not_mem cs tail hnotmem

/-- Witness for C1 at scenario B: the result is exactly
`[(block2, 1), (block1, 1)]` and the finalized genesis is absent. -/
theorem single_vote_linear_chain_witness :
    compute_block_weights scenarioB = [(block2Root, 1), (block1Root, 1)] ∧
      alookup (compute_block_weights scenarioB) genesisRoot = none := by
  have h := single_vote_linear_chain scenarioB 0 77 [0] [102, 101] 100
    ⟨2, ⟨2, 102⟩, ⟨2, 102⟩, ⟨0, 100⟩⟩
    rfl rfl rfl
    ⟨block2Header, rfl, by decide, rfl,
      ⟨block1Header, rfl, by decide, rfl,
        ⟨genesisHeader, rfl, by decide⟩⟩⟩
    (by decide) (by decide)
  exact h

/-- C2: every digest keyed in the result of `compute_block_weights` is a
known block whose slot is strictly above the finalized slot; blocks at or
below it are absent from the result, not present with weight 0. -/
theorem weight_keys_above_finalized (store : Store) (d : Digest)
    (hd : d ∈ keys (compute_block_weights store)) :
    ∃ b, alookup store.blocks d = some b ∧ store.latest_finalized.slot < b.slot := by
  simp only [compute_block_weights] at hd
  rcases mem_keys_foldVotes store.attestation_data_by_root store.blocks
      store.latest_finalized.slot (store.latest_known_aggregated_payloads.map Prod.fst)
      [] d hd with h | h
  · simp [keys] at h
  · exact h

/-- Witness for C2: `block2Root` is keyed in scenario B's result, and the
theorem yields its block at slot 2, above the finalized slot 0. -/
theorem weight_keys_above_finalized_witness :
    ∃ b, alookup scenarioB.blocks block2Root = some b ∧
      scenarioB.latest_finalized.slot < b.slot :=
  weight_keys_above_finalized scenarioB block2Root (by decide)

/-- C3: weights are additive across validators: splitting the vote table
into two parts and weighing each part alone yields weights that sum to
the combined run, for every digest (no deduplication across validators);
concretely two validators voting for the slot-1 block yield exactly
`[(block1, 2)]`. -/
theorem weights_additive (store : Store) (vs1 vs2 : List (VoteKey × List Nat)) (d : Digest) :
    weightOf (compute_block_weights
        { store with latest_known_aggregated_payloads := vs1 ++ vs2 }) d =
      weightOf (compute_block_weights
          { store with latest_known_aggregated_payloads := vs1 }) d +
        weightOf (compute_block_weights
          { store with latest_known_aggregated_payloads := vs2 }) d ∧
      compute_block_weights scenarioC = [(block1Root, 2)] := by
  refine ⟨?_, by decide⟩
  simp only [compute_block_weights]
  rw [List.map_append, List.foldl_append]
  rw [weightOf_foldVotes, weightOf_foldVotes, weightOf_foldVotes]
  simp [weightOf_nil]

/-- C4: an empty vote table yields an empty weight mapping, not a mapping
of every block to weight 0. -/
theorem empty_votes_empty_weights (store : Store)
    (h : store.latest_known_aggregated_payloads = []) :
    compute_block_weights store = [] := by
  simp [compute_block_weights, h]

/-- Witness for C4: the genesis-only store yields the empty mapping. -/
theorem empty_votes_empty_weights_witness :
    compute_block_weights genesisStore = [] :=
  empty_votes_empty_weights genesisStore rfl

/-- C5: a vote-table entry whose payload digest has no attestation-cache
entry is skipped: the weighing pass completes and returns exactly the
result of the pass over the remaining votes. -/
theorem unresolvable_vote_skipped (store : Store) (v pd : Nat) (ev : List Nat)
    (pre post : List (VoteKey × List Nat))
    (hv : store.latest_known_aggregated_payloads = pre ++ ((v, pd), ev) :: post)
    (ha : alookup store.attestation_data_by_root pd = none) :
    compute_block_weights store =
      compute_block_weights
        { store with latest_known_aggregated_payloads := pre ++ post } := by
  simp only [compute_block_weights, hv]
  rw [List.map_append, List.map_cons, List.foldl_append, List.foldl_cons,
    List.map_append, List.foldl_append]
  rw [show ((((v, pd), ev) : VoteKey × List Nat).fst) = (v, pd) from rfl]
  rw [processVote_unresolvable store.attestation_data_by_root store.blocks
    store.latest_finalized.slot _ (v, pd) ha]

/-- Witness for C5: scenario D (scenario B plus an unresolvable vote for
payload digest 99) weighs exactly like scenario B's vote table alone. -/
theorem unresolvable_vote_skipped_witness :
    compute_block_weights scenarioD =
      compute_block_weights
        { scenarioD with
            latest_known_aggregated_payloads :=
              [] ++ scenarioB.latest_known_aggregated_payloads } :=
  unresolvable_vote_skipped scenarioD 5 99 [0] []
    scenarioB.latest_known_aggregated_payloads rfl (by decide)

/-- A node of the fork-choice tree snapshot served by the API handler:
root, slot, parent digest, proposer and reported weight. -/
structure ForkNode where
  root : Digest
  slot : Nat
  parent_root : Digest
  proposer_index : Nat
  weight : Nat
  deriving DecidableEq

/-- The nodes the fork-choice endpoint builds: every block map entry is
kept unless its slot is strictly below the finalized slot (the handler's
`continue`), and each kept block becomes a node whose weight is its entry
in the `compute_block_weights` result, defaulting to 0 when absent. -/
def forkChoiceNodes (store : Store) : List ForkNode :=
  (store.blocks.filter fun rb =>
      ! decide (rb.2.slot < store.latest_finalized.slot)).map fun rb =>
    { root := rb.1
      slot := rb.2.slot
      parent_root := rb.2.parent_root
      proposer_index := rb.2.proposer_index
      weight := weightOf (compute_block_weights store) rb.1 }

/-- The JSON response body of the fork-choice endpoint. -/
structure ForkChoiceResponse where
  nodes : List ForkNode
  head : Digest
  justified : Checkpoint
  finalized : Checkpoint
  safe_target : Digest
  validator_count : Nat
  deriving DecidableEq

/-- The response body the handler assembles from an initialized store:
nodes, head, the two checkpoints, the safe target, and the validator
count read from the state keyed by the head digest (0 when absent). -/
def buildForkChoiceResponse (store : Store) : ForkChoiceResponse :=
  { nodes := forkChoiceNodes store
    head := store.head
    justified := store.latest_justified
    finalized := store.latest_finalized
    safe_target := store.safe_target
    validator_count :=
      match alookup store.states store.head with
      | some s => s.validators.length
      | none => 0 }

/-- The fork-choice endpoint handler: with no store available it answers
503 with no body and computes nothing; with a store it answers 200 with
the assembled JSON body. -/
def handleForkChoice (store : Option Store) : Nat × Option ForkChoiceResponse :=
  match store with
  | none => (503, none)
  | some s => (200, some (buildForkChoiceResponse s))

/-- C6: the snapshot contains a node for every block whose slot is at
least the finalized slot (inclusive, one slot wider than the weighing
boundary, so the finalized block itself appears), every node is at or
above that boundary, and each node's weight is the block's entry in the
`compute_block_weights` result, defaulting to 0 when absent. -/
theorem snapshot_nodes_spec (store : Store) :
    (∀ node ∈ (buildForkChoiceResponse store).nodes,
        store.latest_finalized.slot ≤ node.slot ∧
          node.weight = weightOf (compute_block_weights store) node.root) ∧
      ∀ rb ∈ store.blocks, store.latest_finalized.slot ≤ rb.2.slot →
        ∃ node ∈ (buildForkChoiceResponse store).nodes,
          node.root = rb.1 ∧ node.slot = rb.2.slot ∧
            node.weight = weightOf (compute_block_weights store) rb.1 := by
  constructor
  · intro node hnode
    simp only [buildForkChoiceResponse, forkChoiceNodes, List.mem_map,
      List.mem_filter] at hnode
    obtain ⟨rb, ⟨_, hslot⟩, hmk⟩ := hnode
    subst hmk
    refine ⟨?_, rfl⟩
    simpa using hslot
  · intro rb hmem hslot
    refine ⟨⟨rb.1, rb.2.slot, rb.2.parent_root, rb.2.proposer_index,
      weightOf (compute_block_weights store) rb.1⟩, ?_, rfl, rfl, rfl⟩
    simp only [buildForkChoiceResponse, forkChoiceNodes, List.mem_map,
      List.mem_filter]
    exact ⟨rb, ⟨hmem, by simpa using hslot⟩, rfl⟩

/-- Witness for C6 at scenario B: the finalized genesis block (slot equal
to the finalized slot) still gets a node, with default weight. -/
theorem snapshot_nodes_spec_witness :
    ∃ node ∈ (buildForkChoiceResponse scenarioB).nodes,
      node.root = genesisRoot ∧ node.slot = 0 ∧
        node.weight = weightOf (compute_block_weights scenarioB) genesisRoot := by
  have h := (snapshot_nodes_spec scenarioB).2 (100, genesisHeader) (by decide) (by decide)
  simpa [genesisRoot, genesisHeader] using h

/-- C7: the validator count attached to a snapshot is the number of
validators in the state stored under the head digest, and 0 when no
state exists for the head digest. -/
theorem snapshot_validator_count (store : Store) :
    (∀ s, alookup store.states store.head = some s →
        (buildForkChoiceResponse store).validator_count = s.validators.length) ∧
      (alookup store.states store.head = none →
        (buildForkChoiceResponse store).validator_count = 0) := by
  constructor
  · intro s hs
    simp [buildForkChoiceResponse, hs]
  · intro hs
    simp [buildForkChoiceResponse, hs]

/-- Witness for C7: scenario B's snapshot reports 3 validators, the size
of the genesis state stored under the head digest. -/
theorem snapshot_validator_count_witness :
    (buildForkChoiceResponse scenarioB).validator_count = 3 := by
  have h := (snapshot_validator_count scenarioB).1 genesisState rfl
  simpa [genesisState] using h

/-- C8: with no store available the handler answers 503 and produces no
body (so no weighing result at all); with any store it answers 200 with
the assembled JSON body. -/
theorem handler_unavailable_then_ok :
    handleForkChoice none = (503, none) ∧
      ∀ store : Store, (handleForkChoice (some store)).1 = 200 ∧
        (handleForkChoice (some store)).2 = some (buildForkChoiceResponse store) :=
  ⟨rfl, fun _ => ⟨rfl, rfl⟩⟩

/-- Result values of `advance_checkpoints`, from the spec's error
taxonomy for checkpoint mutation. -/
inductive CheckpointError where
  | RegressionRejected
  | InvalidCheckpointLinkage
  deriving DecidableEq

/-- Modelled from the spec: parent-chain ancestor test used by the
checkpoint-linkage validation (the fork-choice store mutation code is not
part of the inspected sources).  Fuel bounds the walk defensively. -/
def isAncestor (blocks : List (Digest × BlockHeader)) :
    Nat → Digest → Digest → Bool
  | 0, _, _ => false
  | fuel + 1, anc, desc =>
    if desc = anc then true
    else
      match alookup blocks desc with
      | none => false
      | some b => isAncestor blocks fuel anc b.parent_root

/-- Modelled from the spec: the slot/ancestor invariants checked when
checkpoints are advanced — finalized slot at most justified slot, and the
finalized block (when known) sits at the finalized slot, is an ancestor
of the justified block, which is an ancestor of the head. -/
def checkpointLinkageOk (store : Store) (justified finalized : Checkpoint) : Bool :=
  decide (finalized.slot ≤ justified.slot) &&
    match alookup store.blocks finalized.root with
    | none => true
    | some b =>
      decide (b.slot = finalized.slot) &&
        isAncestor store.blocks (store.blocks.length + 1) finalized.root justified.root &&
        isAncestor store.blocks (store.blocks.length + 1) justified.root store.head

/-- Modelled from the spec: `advance_checkpoints` (absent from the
inspected sources).  A new finalized slot strictly below the current one
is rejected with `RegressionRejected` before anything else; a linkage
violation is rejected with `InvalidCheckpointLinkage`; otherwise the
three scalar checkpoint fields are swapped in.  The returned store is
the unchanged input on every failure. -/
def advance_checkpoints (store : Store) (justified finalized : Checkpoint)
    (safeTarget : Digest) : Store × Option CheckpointError :=
  if finalized.slot < store.latest_finalized.slot then
    (store, some CheckpointError.RegressionRejected)
  else if ¬ checkpointLinkageOk store justified finalized then
    (store, some CheckpointError.InvalidCheckpointLinkage)
  else
    ({ store with
        latest_justified := justified
        latest_finalized := finalized
        safe_target := safeTarget }, none)

/-- C9: advancing checkpoints with a finalized slot strictly below the
current one always fails with `RegressionRejected` and returns the store
with every field equal to its pre-call value. -/
theorem advance_checkpoints_regression (store : Store)
    (justified finalized : Checkpoint) (safeTarget : Digest)
    (h : finalized.slot < store.latest_finalized.slot) :
    advance_checkpoints store justified finalized safeTarget =
      (store, some CheckpointError.RegressionRejected) := by
  simp [advance_checkpoints, h]

/-- A store finalized at slot 1 (scenario B re-finalized at block 1),
used to exhibit a finality regression. -/
def scenarioFinal1 : Store :=
  { scenarioB with
      latest_justified := ⟨1, 101⟩
      latest_finalized := ⟨1, 101⟩ }

/-- Witness for C9: asking a store finalized at slot 1 to finalize slot 0
again is rejected and leaves the store untouched. -/
theorem advance_checkpoints_regression_witness :
    advance_checkpoints scenarioFinal1 ⟨0, 100⟩ ⟨0, 100⟩ 100 =
      (scenarioFinal1, some CheckpointError.RegressionRejected) :=
  advance_checkpoints_regression scenarioFinal1 ⟨0, 100⟩ ⟨0, 100⟩ 100 (by decide)

/-- The LEAN_ENV values the configuration module accepts. -/
def supportedModes : List String := ["prod", "test"]

/-- ASCII lowercasing of a string, character by character: the embedding
of Python's `str.lower()` as applied to the environment value. -/
def lowercase (s : String) : String :=
  String.mk (s.data.map Char.toLower)

/-- The module-level initialization of config.py: read the LEAN_ENV
environment variable (`none` models an unset variable, defaulting to
"prod"), lowercase it, and either expose it as the module constant or
fail with a ValueError naming the invalid value. -/
def initModeFromEnvVar (envVar : Option String) : Except String String :=
  if lowercase (envVar.getD "prod") ∈ supportedModes then
    Except.ok (lowercase (envVar.getD "prod"))
  else
    Except.error ("Invalid LEAN_ENV environment variable: " ++
      lowercase (envVar.getD "prod"))

/-- C10: importing the configuration module fails iff the lowercased
LEAN_ENV value is outside the supported set; otherwise the exposed
constant is exactly the lowercased value, and an unset variable yields
the default "prod". -/
theorem config_mode_spec (envVar : Option String) :
    ((∃ msg, initModeFromEnvVar envVar = Except.error msg) ↔
        lowercase (envVar.getD "prod") ∉ supportedModes) ∧
      (∀ v, initModeFromEnvVar envVar = Except.ok v →
        v = lowercase (envVar.getD "prod")) ∧
      initModeFromEnvVar none = Except.ok "prod" := by
  refine ⟨?_, ?_, ?_⟩
  · by_cases h : lowercase (envVar.getD "prod") ∈ supportedModes
    · simp [initModeFromEnvVar, h]
    · simp [initModeFromEnvVar, h]
  · intro v hv
    by_cases h : lowercase (envVar.getD "prod") ∈ supportedModes
    · simp only [initModeFromEnvVar, if_pos h, Except.ok.injEq] at hv
      exact hv.symm
    · simp [initModeFromEnvVar, if_neg h] at hv
  · have h : lowercase ((none : Option String).getD "prod") ∈ supportedModes := by decide
    simp only [initModeFromEnvVar, if_pos h, Except.ok.injEq]
    decide

/-- Witness for C10: an unsupported value like "staging" is rejected,
and an unset variable defaults to "prod". -/
theorem config_mode_spec_witness :
    (∃ msg, initModeFromEnvVar (some "staging") = Except.error msg) ∧
      initModeFromEnvVar none = Except.ok "prod" :=
  ⟨((config_mode_spec (some "staging")).1).mpr (by decide),
    (config_mode_spec none).2.2⟩

end LeanSpecFC
